import Mathlib

/-!
# Verification of the Rust-Lab exercise corpus

Shallow embedding of the algorithmic fragments of the repository
(`src/exercises/...`), with theorems settling the specification claims.
Machine integers (`u64`, `u32`, `u16`, `i32`) are embedded as `Nat`/`Int`
with explicit reduction modulo `2 ^ w` (or an explicit overflow check)
at the operations where wrap-around matters.
-/

/-- Modulus of Rust `u64` arithmetic. -/
def U64_MOD : Nat := 2 ^ 64

/-- Reference Fibonacci from the specification:
`F(0) = 0`, `F(1) = 1`, `F(k) = F(k-1) + F(k-2)`. -/
def fibSpec : Nat → Nat
  | 0 => 0
  | 1 => 1
  | n + 2 => fibSpec (n + 1) + fibSpec n

/-- Embeds `fibonacci_inefficient` (`performance_optimization.rs`):
`if n <= 1 { n as u64 } else { fibonacci_inefficient(n - 1) + fibonacci_inefficient(n - 2) }`,
the `u64` addition taken modulo `2 ^ 64`. -/
def fibonacci_inefficient : Nat → Nat
  | 0 => 0
  | 1 => 1
  | n + 2 => (fibonacci_inefficient (n + 1) + fibonacci_inefficient n) % U64_MOD

/-- Entry `i` of the `memo` vector built by `fibonacci_optimized`
(`performance_optimization_fixed.rs`): the loop establishes
`memo[0] = 0`, `memo[1] = 1`, and `memo[i] = memo[i-1] + memo[i-2]`
for `2 <= i <= n`, every entry a `u64` (addition modulo `2 ^ 64`). -/
def memoEntry : Nat → Nat
  | 0 => 0
  | 1 => 1
  | i + 2 => (memoEntry (i + 1) + memoEntry i) % U64_MOD

/-- Embeds `fibonacci_optimized` (`performance_optimization_fixed.rs`):
`if n <= 1 { return n as u64; }`, otherwise build the memo vector and
return `memo[n]`. -/
def fibonacci_optimized (n : Nat) : Nat :=
  if n ≤ 1 then n else memoEntry n

theorem fibSpec_eq_fib : ∀ n, fibSpec n = Nat.fib n
  | 0 => rfl
  | 1 => rfl
  | n + 2 => by
    rw [fibSpec, fibSpec_eq_fib (n + 1), fibSpec_eq_fib n, Nat.fib_add_two]
    omega

theorem memoEntry_eq_fibSpec_mod : ∀ n, memoEntry n = fibSpec n % U64_MOD
  | 0 => rfl
  | 1 => rfl
  | n + 2 => by
    rw [memoEntry, fibSpec, memoEntry_eq_fibSpec_mod (n + 1),
      memoEntry_eq_fibSpec_mod n, ← Nat.add_mod]

theorem fibSpec_lt_u64 {n : Nat} (h : n ≤ 93) : fibSpec n < U64_MOD := by
  have h1 : Nat.fib n ≤ Nat.fib 93 := Nat.fib_mono h
  have h2 : Nat.fib 93 < U64_MOD := by decide
  rw [fibSpec_eq_fib]
  omega

/-- C1: for every `n ≤ 93`, `fibonacci_optimized n` returns the reference
Fibonacci number `fibSpec n` exactly, and `fibSpec n` fits in 64-bit
unsigned arithmetic (no overflow occurs). -/
theorem fibonacci_optimized_correct (n : Nat) (h : n ≤ 93) :
    fibonacci_optimized n = fibSpec n ∧ fibSpec n < 2 ^ 64 := by
  have hlt : fibSpec n < U64_MOD := fibSpec_lt_u64 h
  refine ⟨?_, hlt⟩
  unfold fibonacci_optimized
  split
  · match n with
    | 0 => rfl
    | 1 => rfl
  · rw [memoEntry_eq_fibSpec_mod, Nat.mod_eq_of_lt hlt]

/-- Witness for C1 at `n = 35`: `fibonacci_optimized 35 = 9227465`. -/
theorem fibonacci_optimized_correct_witness :
    35 ≤ 93 ∧ fibonacci_optimized 35 = 9227465 := by
  have h := fibonacci_optimized_correct 35 (by decide)
  refine ⟨by decide, ?_⟩
  rw [h.1, fibSpec_eq_fib]
  decide

theorem fibonacci_inefficient_eq_memoEntry : ∀ n, fibonacci_inefficient n = memoEntry n
  | 0 => rfl
  | 1 => rfl
  | n + 2 => by
    rw [fibonacci_inefficient, memoEntry, fibonacci_inefficient_eq_memoEntry (n + 1),
      fibonacci_inefficient_eq_memoEntry n]

/-- C5: for every `n ≤ 20`, the naive doubly-recursive `fibonacci_inefficient`
and the memoized `fibonacci_optimized` return the same value. -/
theorem fibonacci_inefficient_eq_optimized (n : Nat) (h : n ≤ 20) :
    fibonacci_inefficient n = fibonacci_optimized n := by
  rw [fibonacci_inefficient_eq_memoEntry]
  unfold fibonacci_optimized
  split
  · match n with
    | 0 => rfl
    | 1 => rfl
  · rfl

/-- Witness for C5 at `n = 20`. -/
theorem fibonacci_inefficient_eq_optimized_witness :
    20 ≤ 20 ∧ fibonacci_inefficient 20 = fibonacci_optimized 20 :=
  ⟨by decide, fibonacci_inefficient_eq_optimized 20 (by decide)⟩

/-- Embeds the `User` struct of `performance_optimization_fixed.rs`:
`id: u32`, `name: String`, `email: String`, `posts: Vec<u32>`,
`last_post_id: Option<u32>`. -/
structure User where
  id : Nat
  name : String
  email : String
  posts : List Nat
  last_post_id : Option Nat
deriving Repr, DecidableEq

/-- Embeds `User::new`: empty post list, no last post id. -/
def User.new (id : Nat) (name email : String) : User :=
  { id := id, name := name, email := email, posts := [], last_post_id := none }

/-- Embeds `User::add_post`:
`self.posts.push(post_id); self.last_post_id = Some(post_id);`. -/
def User.add_post (u : User) (post_id : Nat) : User :=
  { u with posts := u.posts ++ [post_id], last_post_id := some post_id }

/-- Bisection loop of `slice::binary_search` on the index range `[lo, hi)`
of `posts`: compare the midpoint element with the target and narrow to the
half that can still contain it; `true` on a hit, `false` once the range is
empty. -/
def binarySearchGo (posts : List Nat) (target lo hi : Nat) : Bool :=
  if lo < hi then
    if posts.getD (lo + (hi - lo) / 2) 0 < target then
      binarySearchGo posts target (lo + (hi - lo) / 2 + 1) hi
    else if target < posts.getD (lo + (hi - lo) / 2) 0 then
      binarySearchGo posts target lo (lo + (hi - lo) / 2)
    else true
  else false
termination_by hi - lo
decreasing_by all_goals omega

/-- Embeds `User::find_post`: `self.posts.binary_search(&post_id).is_ok()`. -/
def User.find_post (u : User) (post_id : Nat) : Bool :=
  binarySearchGo u.posts post_id 0 u.posts.length

theorem binarySearchGo_sound (posts : List Nat) (target : Nat) :
    ∀ m lo hi, hi - lo = m → binarySearchGo posts target lo hi = true →
      ∃ i, lo ≤ i ∧ i < hi ∧ posts.getD i 0 = target := by
  intro m
  induction m using Nat.strong_induction_on with
  | _ m ih =>
    intro lo hi hm hb
    rw [binarySearchGo] at hb
    split at hb
    case isTrue hlt =>
      split at hb
      case isTrue hv =>
        obtain ⟨i, h1, h2, h3⟩ :=
          ih (hi - (lo + (hi - lo) / 2 + 1)) (by omega) _ _ rfl hb
        exact ⟨i, by omega, h2, h3⟩
      case isFalse hv =>
        split at hb
        case isTrue hv2 =>
          obtain ⟨i, h1, h2, h3⟩ :=
            ih ((lo + (hi - lo) / 2) - lo) (by omega) _ _ rfl hb
          exact ⟨i, h1, by omega, h3⟩
        case isFalse hv2 =>
          exact ⟨lo + (hi - lo) / 2, by omega, by omega, by omega⟩
    case isFalse hlt =>
      simp at hb

theorem binarySearchGo_complete (posts : List Nat) (target : Nat)
    (hs : List.Sorted (· ≤ ·) posts) :
    ∀ m lo hi, hi - lo = m → hi ≤ posts.length →
      (∃ i, lo ≤ i ∧ i < hi ∧ posts.getD i 0 = target) →
      binarySearchGo posts target lo hi = true := by
  have hmono : ∀ i j, i ≤ j → j < posts.length →
      posts.getD i 0 ≤ posts.getD j 0 := by
    intro i j hij hj
    rcases eq_or_lt_of_le hij with h | h
    · subst h; exact le_refl _
    · rw [List.getD_eq_getElem _ _ (by omega), List.getD_eq_getElem _ _ hj]
      exact List.pairwise_iff_getElem.mp hs i j (by omega) hj h
  intro m
  induction m using Nat.strong_induction_on with
  | _ m ih =>
    intro lo hi hm hhi hex
    obtain ⟨i, h1, h2, h3⟩ := hex
    have hlt : lo < hi := by omega
    rw [binarySearchGo, if_pos hlt]
    split
    case isTrue hv =>
      have hgt : lo + (hi - lo) / 2 < i := by
        by_contra hc
        push_neg at hc
        have := hmono i (lo + (hi - lo) / 2) hc (by omega)
        omega
      exact ih (hi - (lo + (hi - lo) / 2 + 1)) (by omega) _ _ rfl hhi
        ⟨i, by omega, h2, h3⟩
    case isFalse hv =>
      split
      case isTrue hv2 =>
        have hilt : i < lo + (hi - lo) / 2 := by
          by_contra hc
          push_neg at hc
          have := hmono (lo + (hi - lo) / 2) i hc (by omega)
          omega
        exact ih ((lo + (hi - lo) / 2) - lo) (by omega) _ _ rfl (by omega)
          ⟨i, h1, hilt, h3⟩
      case isFalse hv2 =>
        rfl

/-- C2: for a `User` whose `posts` list is sorted in non-decreasing order,
`find_post` (binary search) returns `true` exactly when a linear scan
(`List.elem`) finds the query; in particular it is `false` on an empty list
and when the query is below or above every element. -/
theorem find_post_eq_linear_scan (u : User) (v : Nat)
    (hs : List.Sorted (· ≤ ·) u.posts) :
    u.find_post v = u.posts.elem v := by
  cases hb : binarySearchGo u.posts v 0 u.posts.length with
  | true =>
    obtain ⟨i, h1, h2, h3⟩ :=
      binarySearchGo_sound u.posts v (u.posts.length - 0) 0 u.posts.length rfl hb
    have hmem : v ∈ u.posts := by
      rw [List.mem_iff_getElem]
      exact ⟨i, h2, by rw [← List.getD_eq_getElem u.posts 0 h2]; exact h3⟩
    unfold User.find_post
    rw [hb, List.elem_iff.mpr hmem]
  | false =>
    have hnot : v ∉ u.posts := by
      intro hmem
      obtain ⟨i, hilen, hi⟩ := List.mem_iff_getElem.mp hmem
      have hc := binarySearchGo_complete u.posts v hs (u.posts.length - 0)
        0 u.posts.length rfl le_rfl
        ⟨i, Nat.zero_le i, hilen, by rw [List.getD_eq_getElem u.posts 0 hilen]; exact hi⟩
      rw [hb] at hc
      exact Bool.false_ne_true hc
    unfold User.find_post
    rw [hb]
    cases h : u.posts.elem v with
    | false => rfl
    | true => exact absurd (List.elem_iff.mp h) hnot

/-- Witness for C2 on the sorted list `[2, 4, 6]` with query `5`. -/
theorem find_post_eq_linear_scan_witness :
    List.Sorted (· ≤ ·) ([2, 4, 6] : List Nat) ∧
    ({ id := 1, name := "a", email := "b", posts := [2, 4, 6],
       last_post_id := none : User }).find_post 5 = ([2, 4, 6] : List Nat).elem 5 :=
  ⟨by decide, find_post_eq_linear_scan _ 5 (by decide)⟩

/-- C7: appending a post id that is at least every existing post id keeps
`posts` sorted in non-decreasing order — the sortedness precondition that
`find_post` relies on is preserved by `add_post` under the
append-the-maximum usage pattern. -/
theorem add_post_preserves_sorted (u : User) (p : Nat)
    (hs : List.Sorted (· ≤ ·) u.posts) (hmax : ∀ x ∈ u.posts, x ≤ p) :
    List.Sorted (· ≤ ·) (u.add_post p).posts := by
  show List.Sorted (· ≤ ·) (u.posts ++ [p])
  rw [List.Sorted, List.pairwise_append]
  refine ⟨hs, List.pairwise_singleton _ _, ?_⟩
  intro a ha b hb
  rw [List.mem_singleton] at hb
  subst hb
  exact hmax a ha

/-- Witness for C7: appending `3` to the sorted post list `[1, 2]`. -/
theorem add_post_preserves_sorted_witness :
    List.Sorted (· ≤ ·) ([1, 2] : List Nat) ∧
    List.Sorted (· ≤ ·)
      (({ id := 0, name := "u", email := "e", posts := [1, 2],
          last_post_id := none : User }).add_post 3).posts :=
  ⟨by decide, add_post_preserves_sorted _ 3 (by decide) (by decide)⟩

/-- C9: `add_post u p` appends exactly the single element `p` at the end of
`u.posts` (existing elements unchanged, in order), sets `last_post_id` to
`some p`, and leaves `id`, `name` and `email` unchanged. -/
theorem add_post_effect (u : User) (p : Nat) :
    (u.add_post p).posts = u.posts ++ [p] ∧
    (u.add_post p).last_post_id = some p ∧
    (u.add_post p).id = u.id ∧
    (u.add_post p).name = u.name ∧
    (u.add_post p).email = u.email :=
  ⟨rfl, rfl, rfl, rfl, rfl⟩

/-- Embeds the `Config` struct of `error_handling_basics_fixed.rs`:
`port: u16`, `host: String`, `timeout: u64`, `debug_level: String`. -/
structure Config where
  port : Nat
  host : String
  timeout : Nat
  debug_level : String
deriving Repr, DecidableEq

/-- Embeds `Config::new`: `debug_level` starts as `"info"`. -/
def Config.new (port : Nat) (host : String) (timeout : Nat) : Config :=
  { port := port, host := host, timeout := timeout, debug_level := "info" }

/-- The `valid_levels` array of `Config::set_debug_level`. -/
def valid_levels : List String := ["trace", "debug", "info", "warn", "error"]

/-- Embeds `Config::set_debug_level` (`&mut self`, returning
`Result<(), String>`): the pair carries the returned `Result` and the
receiver after the call. -/
def Config.set_debug_level (c : Config) (level : String) :
    Except String Unit × Config :=
  if valid_levels.contains level then
    (Except.ok (), { c with debug_level := level })
  else
    (Except.error ("Nivel de debug inválido: " ++ level), c)

/-- Embeds `Config::get_debug_level`: returns `debug_level`. -/
def Config.get_debug_level (c : Config) : String :=
  c.debug_level

/-- C4: `set_debug_level level` succeeds and makes `get_debug_level` return
`level` exactly when `level` is one of the five recognized values; for any
other `level` it returns an error and leaves the `Config` unchanged (so
`get_debug_level` still returns the prior value); membership of
`debug_level` in the five values is invariant and holds for `Config.new`. -/
theorem set_debug_level_correct (c : Config) (level : String) :
    (((c.set_debug_level level).1 = Except.ok () ∧
        (c.set_debug_level level).2.get_debug_level = level) ↔
      level ∈ valid_levels) ∧
    (level ∉ valid_levels →
      (∃ e, (c.set_debug_level level).1 = Except.error e) ∧
        (c.set_debug_level level).2 = c) ∧
    (c.debug_level ∈ valid_levels →
      (c.set_debug_level level).2.debug_level ∈ valid_levels) ∧
    (∀ (p : Nat) (h : String) (t : Nat),
      (Config.new p h t).debug_level ∈ valid_levels) := by
  by_cases hm : level ∈ valid_levels
  · have hc : valid_levels.contains level = true := List.elem_iff.mpr hm
    refine ⟨?_, fun hnot => absurd hm hnot, ?_, ?_⟩
    · simp [Config.set_debug_level, hc, Config.get_debug_level, hm]
    · intro _
      simp [Config.set_debug_level, hc, hm]
    · intro p h t
      simp [Config.new, valid_levels]
  · have hc : valid_levels.contains level = false := by
      rw [Bool.eq_false_iff]
      intro hcc
      exact hm (List.elem_iff.mp hcc)
    refine ⟨?_, ?_, ?_, ?_⟩
    · constructor
      · intro hok
        have h1 := hok.1
        simp [Config.set_debug_level, hc, hm] at h1
      · intro hmm
        exact absurd hmm hm
    · intro _
      refine ⟨⟨"Nivel de debug inválido: " ++ level, ?_⟩, ?_⟩ <;>
        simp [Config.set_debug_level, hc, hm]
    · intro hcdl
      simpa [Config.set_debug_level, hc, hm] using hcdl
    · intro p h t
      simp [Config.new, valid_levels]

/-- Witness for C4: on `Config::new(8080, "localhost", 30)`,
setting `"debug"` succeeds and is observable through `get_debug_level`,
while setting `"bogus"` leaves the configuration unchanged. -/
theorem set_debug_level_correct_witness :
    ((Config.new 8080 "localhost" 30).set_debug_level "debug").2.get_debug_level
      = "debug" ∧
    ((Config.new 8080 "localhost" 30).set_debug_level "bogus").2
      = Config.new 8080 "localhost" 30 :=
  ⟨((set_debug_level_correct (Config.new 8080 "localhost" 30) "debug").1.mpr
      (by decide)).2,
   ((set_debug_level_correct (Config.new 8080 "localhost" 30) "bogus").2.1
      (by decide)).2⟩

/-- Largest value of Rust `i32`. -/
def I32_MAX : Int := 2 ^ 31 - 1

/-- Embeds the `Counter` struct of `concurrency_basics_fixed.rs`:
`value: i32`. -/
structure Counter where
  value : Int
deriving Repr, DecidableEq

/-- Embeds `Counter::new`: `Self { value: 0 }`. -/
def Counter.new : Counter :=
  { value := 0 }

/-- Embeds `Counter::increment`: `self.value += 1` on an `i32`; `i32`
addition aborts on overflow (debug-build semantics), embedded as `none`
when the successor would exceed `I32_MAX`. -/
def Counter.increment (c : Counter) : Option Counter :=
  if c.value + 1 ≤ I32_MAX then some { value := c.value + 1 } else none

/-- Embeds `Counter::get_value`: returns `value`. -/
def Counter.get_value (c : Counter) : Int :=
  c.value

/-- `n` completed `increment` operations in sequence (the mutual-exclusion
lock serializes the concurrent increments, so their combined effect is a
sequential composition). -/
def incrementN : Nat → Counter → Option Counter
  | 0, c => some c
  | n + 1, c => (incrementN n c).bind Counter.increment

theorem incrementN_value : ∀ (n : Nat) (c c' : Counter),
    incrementN n c = some c' → c'.value = c.value + n := by
  intro n
  induction n with
  | zero =>
    intro c c' h
    simp [incrementN] at h
    simp [← h]
  | succ n ih =>
    intro c c' h
    simp [incrementN, Option.bind_eq_some] at h
    obtain ⟨a, ha, hinc⟩ := h
    have hv := ih c a ha
    simp [Counter.increment] at hinc
    obtain ⟨hle, hc'⟩ := hinc
    rw [← hc']
    simp
    omega

/-- C6: starting from `Counter::new()` (value `0`), after `n` increment
operations have completed, `get_value` returns exactly `n` — no update is
lost. -/
theorem counter_increments_exact (n : Nat) (c : Counter)
    (h : incrementN n Counter.new = some c) :
    c.get_value = (n : Int) := by
  have hv := incrementN_value n Counter.new c h
  simpa [Counter.get_value, Counter.new] using hv

/-- Witness for C6 at `n = 10`. -/
theorem counter_increments_exact_witness :
    incrementN 10 Counter.new = some { value := 10 } ∧
    ({ value := 10 } : Counter).get_value = (10 : Int) :=
  ⟨by decide, counter_increments_exact 10 { value := 10 } (by decide)⟩

/-- Embeds the `TreeNode` struct of `memory_management_fixed.rs`:
`value: i32`, `children: Vec<Rc<RefCell<TreeNode>>>`,
`parent: Option<Weak<RefCell<TreeNode>>>`. Children are stored as heap
addresses of `Rc<RefCell<TreeNode>>` cells; the parent link stores the
address targeted by the `Weak` reference. -/
structure TreeNode where
  value : Int
  children : List Nat
  parent : Option Nat
deriving Repr, DecidableEq

/-- Embeds `TreeNode::new`: the value, no children, no parent. -/
def TreeNode.new (v : Int) : TreeNode :=
  { value := v, children := [], parent := none }

/-- Heap of `Rc<RefCell<TreeNode>>` cells: the node stored at each address,
its strong (owning) reference count, and the next fresh address. A `Weak`
reference never counts here, so it never extends a cell's lifetime; its
`upgrade` at address `a` succeeds exactly while `strong a > 0`. -/
structure RcHeap where
  nodes : Nat → TreeNode
  strong : Nat → Nat
  next : Nat

/-- `Rc::new(RefCell::new(node))`: allocate a fresh cell with exactly one
strong reference and return its address. -/
def RcHeap.alloc (h : RcHeap) (node : TreeNode) : Nat × RcHeap :=
  (h.next,
   { nodes := fun a => if a = h.next then node else h.nodes a,
     strong := fun a => if a = h.next then 1 else h.strong a,
     next := h.next + 1 })

/-- Dropping one strong reference to the cell at address `a`. -/
def RcHeap.dropStrong (h : RcHeap) (a : Nat) : RcHeap :=
  { h with strong := fun b => if b = a then h.strong b - 1 else h.strong b }

/-- `Weak::upgrade` on a weak reference targeting address `a`: `some a`
while the cell still has an owning reference, `none` once the last one
is gone. -/
def RcHeap.upgrade (h : RcHeap) (a : Nat) : Option Nat :=
  if 0 < h.strong a then some a else none

/-- In-place update (`RefCell` mutation) of the node stored at `a`. -/
def RcHeap.setNode (h : RcHeap) (a : Nat) (node : TreeNode) : RcHeap :=
  { h with nodes := fun b => if b = a then node else h.nodes b }

/-- Embeds `TreeNode::add_child` run on the node at address `p` with the
child cell at address `c`. The statement
`child_ref.parent = Some(Rc::downgrade(&Rc::new(RefCell::new(TreeNode::new(self.value)))));`
allocates a throwaway cell holding a fresh node that copies only the
parent's value, stores a weak reference to it in the child, and then drops
the temporary `Rc` — its only strong reference — when the statement ends;
finally `self.children.push(child);`. (`try_borrow_mut` succeeds here:
no other borrow of the child cell is active in the repository's usage.) -/
def add_child (h : RcHeap) (p c : Nat) : RcHeap :=
  let tmpAlloc := h.alloc (TreeNode.new (h.nodes p).value)
  let tmp := tmpAlloc.1
  let h1 := tmpAlloc.2
  let h2 := h1.setNode c { h1.nodes c with parent := some tmp }
  let h3 := h2.dropStrong tmp
  h3.setNode p { h3.nodes p with children := (h3.nodes p).children ++ [c] }

/-- Embeds `TreeNode::get_parent_value` for the node at address `c`:
upgrade the weak parent link and read the target's value on success,
`None` otherwise. -/
def get_parent_value (h : RcHeap) (c : Nat) : Option Int :=
  match (h.nodes c).parent with
  | none => none
  | some w =>
    match h.upgrade w with
    | none => none
    | some a => some (h.nodes a).value

/-- The empty heap: nothing allocated. -/
def emptyHeap : RcHeap :=
  { nodes := fun _ => TreeNode.new 0, strong := fun _ => 0, next := 0 }

/-- The two-node scenario of `demonstrate_rc_without_cycles` and
`test_rc_without_cycles`: `node1 = Rc::new(RefCell::new(TreeNode::new(1)))`
(address 0), `node2 = Rc::new(RefCell::new(TreeNode::new(2)))` (address 1),
then `node1.borrow_mut().add_child(node2.clone())` — the heap after the
call, with both owning references still live. -/
def scenarioHeap : RcHeap :=
  add_child ((emptyHeap.alloc (TreeNode.new 1)).2.alloc (TreeNode.new 2)).2 0 1

/-- C3 evidence: after `add_child` attaches the child (address 1) to the
parent (address 0), and while the owning reference to the parent is still
live (`strong 0 = 1`), the child's `get_parent_value()` is `none`, not
`some 1`: the weak back-reference targets the temporary cell (address 2)
whose only strong reference was dropped at the end of the assignment
statement inside `add_child` (`strong 2 = 0`). -/
theorem add_child_get_parent_value_none :
    get_parent_value scenarioHeap 1 = none ∧
    (scenarioHeap.nodes 1).parent = some 2 ∧
    scenarioHeap.strong 2 = 0 ∧
    scenarioHeap.strong 0 = 1 ∧
    (scenarioHeap.nodes 0).value = 1 ∧
    (scenarioHeap.nodes 0).children = [1] := by
  refine ⟨rfl, rfl, rfl, rfl, rfl, rfl⟩

/-- State of the single `Rc<i32>` allocation of
`demonstrate_weak_references` (`memory_management_fixed.rs`): the stored
value and its strong (owning) reference count. A weak reference created by
`Rc::downgrade` does not appear in the count. -/
structure RcInt where
  strong : Nat
  value : Int
deriving Repr, DecidableEq

/-- `Rc::new(v)`: one strong reference. -/
def RcInt.new (v : Int) : RcInt :=
  { strong := 1, value := v }

/-- `drop` of one strong reference. -/
def RcInt.drop (s : RcInt) : RcInt :=
  { s with strong := s.strong - 1 }

/-- `Weak::upgrade` of the weak reference created by `Rc::downgrade`:
`Some` of the referenced value while an owning reference remains,
`None` otherwise. -/
def RcInt.upgrade (s : RcInt) : Option Int :=
  if 0 < s.strong then some s.value else none

/-- C8: a weak reference created by `Rc::downgrade` from an owning
reference upgrades to `Some` of the referenced value while at least one
strong reference remains, and to `None` immediately after the last strong
reference is dropped. -/
theorem weak_upgrade_iff_strong (s : RcInt) :
    (0 < s.strong → s.upgrade = some s.value) ∧
    (s.strong = 1 → (RcInt.drop s).upgrade = none) := by
  constructor
  · intro h
    simp [RcInt.upgrade, h]
  · intro h
    simp [RcInt.upgrade, RcInt.drop, h]

/-- Witness for C8 on the trace of `demonstrate_weak_references`:
`strong = Rc::new(42)`, upgrade succeeds with `42`; after `drop(strong)`,
upgrade yields `None`. -/
theorem weak_upgrade_iff_strong_witness :
    0 < (RcInt.new 42).strong ∧ (RcInt.new 42).upgrade = some 42 ∧
    (RcInt.new 42).strong = 1 ∧ ((RcInt.new 42).drop).upgrade = none :=
  ⟨by decide, (weak_upgrade_iff_strong (RcInt.new 42)).1 (by decide),
   by decide, (weak_upgrade_iff_strong (RcInt.new 42)).2 (by decide)⟩

/-- Modelled `str::parse::<u16>` on a digit list (Rust standard library
behavior): at least one ASCII digit, all characters digits, value within
the `u16` range `0 ..= 65535`; `none` on an empty digit string, on a
non-digit character, or on overflow. -/
def parseU16Digits (cs : List Char) : Option Nat :=
  if cs.isEmpty then none
  else if cs.all Char.isDigit then
    if cs.foldl (fun acc c => acc * 10 + (c.toNat - 48)) 0 ≤ 65535 then
      some (cs.foldl (fun acc c => acc * 10 + (c.toNat - 48)) 0)
    else none
  else none

/-- Modelled `str::parse::<u16>`: an optional leading `+` sign followed by
the digits. -/
def parseU16 (s : String) : Option Nat :=
  match s.toList with
  | '+' :: rest => parseU16Digits rest
  | cs => parseU16Digits cs

/-- Embeds `validate_port_safe` (`error_handling_basics_fixed.rs`): parse
as `u16` (error on failure), then reject `0`, then the check
`port > 65535`, otherwise `Ok(port)`. -/
def validate_port_safe (port_str : String) : Except String Nat :=
  match parseU16 port_str with
  | none => Except.error (port_str ++ " no es un número válido")
  | some port =>
    if port = 0 then Except.error "Puerto no puede ser 0"
    else if port > 65535 then Except.error "Puerto no puede ser mayor a 65535"
    else Except.ok port

theorem parseU16Digits_le (cs : List Char) (v : Nat)
    (h : parseU16Digits cs = some v) : v ≤ 65535 := by
  unfold parseU16Digits at h
  split at h
  · exact absurd h (by simp)
  · split at h
    · split at h
      case isTrue hle =>
        rw [Option.some.injEq] at h
        omega
      case isFalse hle =>
        exact absurd h (by simp)
    · exact absurd h (by simp)

theorem parseU16_le (s : String) (v : Nat) (h : parseU16 s = some v) :
    v ≤ 65535 := by
  unfold parseU16 at h
  split at h
  · exact parseU16Digits_le _ _ h
  · exact parseU16Digits_le _ _ h

/-- C10: `validate_port_safe s` returns `Ok p` exactly when `s` parses as a
16-bit unsigned integer `p` with `p ≠ 0`, and returns an error otherwise;
the guard of the branch returning "Puerto no puede ser mayor a 65535" is
never satisfied, because every successfully parsed `u16` is at most
`65535` — that branch is unreachable for every input. -/
theorem validate_port_safe_correct (s : String) (p : Nat) :
    (validate_port_safe s = Except.ok p ↔ (parseU16 s = some p ∧ p ≠ 0)) ∧
    ((parseU16 s = none ∨ parseU16 s = some 0) →
      ∃ e, validate_port_safe s = Except.error e) ∧
    (∀ q, parseU16 s = some q → ¬ 65535 < q) := by
  refine ⟨⟨?_, ?_⟩, ?_, ?_⟩
  · intro h
    unfold validate_port_safe at h
    split at h
    case h_1 => exact absurd h (by simp)
    case h_2 port hp =>
      split at h
      · exact absurd h (by simp)
      · split at h
        · exact absurd h (by simp)
        · rw [Except.ok.injEq] at h
          subst h
          exact ⟨hp, by omega⟩
  · intro h
    obtain ⟨hp, hne⟩ := h
    have hle := parseU16_le s p hp
    unfold validate_port_safe
    rw [hp]
    simp only []
    rw [if_neg hne, if_neg (by omega)]
  · intro h
    unfold validate_port_safe
    rcases h with h | h <;> rw [h]
    · exact ⟨s ++ " no es un número válido", rfl⟩
    · exact ⟨"Puerto no puede ser 0", by simp⟩
  · intro q hq
    have := parseU16_le s q hq
    omega

/-- Witness for C10 at `s = "8080"`: the parse succeeds with `8080 ≠ 0` and
validation returns `Ok 8080`. -/
theorem validate_port_safe_correct_witness :
    parseU16 "8080" = some 8080 ∧
    validate_port_safe "8080" = Except.ok 8080 :=
  ⟨by decide,
   (validate_port_safe_correct "8080" 8080).1.mpr ⟨by decide, by decide⟩⟩
